import Mathlib

/-!
Verification development for the chess-guru core: a shallow embedding of
`src/chess_guru/utils.py` (PGN notation parsing, archive-locator parsing,
UTC normalisation) and of the orchestration in `src/chess_guru/api.py`
(`ChesscomAPI.get_games`), together with theorems settling the frozen
claims about the specification.

Strings are embedded as `List Char`.  Python's regex scans used by the
source are deterministic (each quantifier is followed by a literal or a
disjoint character class, so greedy matching never backtracks); they are
translated into structural scanners below.
-/

namespace ChessGuru

/-- Python `\s` on the ASCII range: space, tab, newline, carriage return,
vertical tab, form feed. -/
def isPySpace (c : Char) : Bool :=
  c = ' ' || c = '\t' || c = '\n' || c = '\x0d' || c = '\x0b' || c = '\x0c'

/-- ASCII decimal digit, Python `\d` restricted to ASCII input. -/
def isDigit09 (c : Char) : Bool :=
  '0' ≤ c && c ≤ '9'

/-- `str.lstrip()` on a character list. -/
def pyLStrip (s : List Char) : List Char :=
  s.dropWhile isPySpace

/-- `str.rstrip()` on a character list. -/
def pyRStrip (s : List Char) : List Char :=
  (s.reverse.dropWhile isPySpace).reverse

/-- `str.strip()` on a character list. -/
def pyStrip (s : List Char) : List Char :=
  pyRStrip (pyLStrip s)

/-- `str.strip(cs)` (strip any of the given characters from both ends). -/
def pyStripChars (cs : List Char) (s : List Char) : List Char :=
  (((s.dropWhile (cs.contains ·)).reverse.dropWhile (cs.contains ·)).reverse)

/-- `str.rstrip(cs)` (strip any of the given characters from the right end). -/
def pyRStripChars (cs : List Char) (s : List Char) : List Char :=
  (s.reverse.dropWhile (cs.contains ·)).reverse

/-- Does `pre` occur at the start of `s`? -/
def leadsWith : List Char → List Char → Bool
  | [], _ => true
  | _ :: _, [] => false
  | a :: as, b :: bs => a = b && leadsWith as bs

/-- Does `suf` occur at the end of `s`? -/
def trailsWith (suf s : List Char) : Bool :=
  leadsWith suf.reverse s.reverse

/-- `s.split(sep, 1)` for a non-empty separator: the part before the first
occurrence of `sep` and the part after it, or `none` when `sep` does not
occur (in the source the 1-element unpack then raises `ValueError`). -/
def splitSub (sep : List Char) : List Char → Option (List Char × List Char)
  | [] => none
  | c :: rest =>
    if leadsWith sep (c :: rest) then some ([], (c :: rest).drop sep.length)
    else
      match splitSub sep rest with
      | some (a, b) => some (c :: a, b)
      | none => none

/-- Line-break characters recognised by `str.splitlines` on ASCII input
(`\r\n` is treated as a single break by the function below). -/
def isLineBrk (c : Char) : Bool :=
  c = '\n' || c = '\x0d' || c = '\x0b' || c = '\x0c'

/-- `str.splitlines()` on ASCII input: accumulator-based scanner, `\r\n`
counts as one break, a trailing break produces no empty final line. -/
def pySplitlinesAux (cur : List Char) : List Char → List (List Char)
  | [] => if cur.isEmpty then [] else [cur.reverse]
  | '\x0d' :: '\n' :: rest => cur.reverse :: pySplitlinesAux [] rest
  | c :: rest =>
    if isLineBrk c then cur.reverse :: pySplitlinesAux [] rest
    else pySplitlinesAux (c :: cur) rest

/-- `str.splitlines()` on ASCII input. -/
def pySplitlines (s : List Char) : List (List Char) :=
  pySplitlinesAux [] s

/-- `s.split(" ", 1)`: the part before the first literal space, and the
part after it when a space occurs. -/
def splitSpace1 : List Char → List Char × Option (List Char)
  | [] => ([], none)
  | c :: rest =>
    if c = ' ' then ([], some rest)
    else
      let p := splitSpace1 rest
      (c :: p.1, p.2)

/-- Python-dict assignment on an association list: replace the value at the
first occurrence of the key, keeping its position, else append. -/
def dictSet {α β : Type} [DecidableEq α] (m : List (α × β)) (k : α) (v : β) :
    List (α × β) :=
  match m with
  | [] => [(k, v)]
  | (k', v') :: rest =>
    if k' = k then (k, v) :: rest else (k', v') :: dictSet rest k v

/-- Python-dict lookup on an association list. -/
def dictGet {α β : Type} [DecidableEq α] (m : List (α × β)) (k : α) : Option β :=
  match m with
  | [] => none
  | (k', v) :: rest => if k' = k then some v else dictGet rest k

/-- Keys of an association list, in insertion order. -/
def dictKeys {α β : Type} (m : List (α × β)) : List α :=
  m.map Prod.fst

end ChessGuru

namespace ChessGuru

/-! ## Notation parsing (`utils.py`) -/

/-- The four result tokens of the pattern `(1-0|0-1|1/2-1/2|\*)\s*$`,
longest first: on a right-stripped movetext the regex can only match a
token that ends the text, and the leftmost match start is the longest
such suffix. -/
def resultTokens : List (List Char) :=
  ["1/2-1/2".data, "1-0".data, "0-1".data, "*".data]

/-- `_end_result_pattern.search` on the stripped movetext followed by
`moves[:m.start()].rstrip()`: returns the movetext with the trailing
result token removed, and the token when one was found. -/
def extractEndResult (moves : List Char) : List Char × Option (List Char) :=
  match resultTokens.find? (fun t => trailsWith t moves) with
  | some t => (pyRStrip (moves.take (moves.length - t.length)), some t)
  | none => (moves, none)

/-- `_split_pgn_headers_and_moves`: split on the first blank-line
separator `"\n\n"` (absence raises, embedded as `none`), strip the
movetext, pull the trailing result token off its end. -/
def split_pgn_headers_and_moves (pgn : List Char) :
    Option (List Char × List Char × Option (List Char)) :=
  match splitSub "\n\n".data pgn with
  | none => none
  | some (h, rest) =>
    let moves := pyStrip rest
    let p := extractEndResult moves
    some (h, p.1, p.2)

/-- One header line of `_parse_pgn_headers`: `line.strip("[]")`, split on
the first space (no space raises, embedded as `none`), `value.strip('"')`. -/
def parseHeaderLine (line : List Char) : Option (List Char × List Char) :=
  let core := pyStripChars ['[', ']'] line
  match splitSpace1 core with
  | (_, none) => none
  | (k, some v) => some (k, pyStripChars ['"'] v)

/-- The loop of `_parse_pgn_headers` over the header block's lines. -/
def parsePgnHeadersAux (acc : List (List Char × List Char)) :
    List (List Char) → Option (List (List Char × List Char))
  | [] => some acc
  | l :: ls =>
    match parseHeaderLine l with
    | none => none
    | some kv => parsePgnHeadersAux (dictSet acc kv.1 kv.2) ls

/-- `_parse_pgn_headers`. -/
def parse_pgn_headers (block : List Char) :
    Option (List (List Char × List Char)) :=
  parsePgnHeadersAux [] (pySplitlines block)

/-- Characters admitted by the clock group `[0-9:\.]`. -/
def isClkChar (c : Char) : Bool :=
  isDigit09 c || c = ':' || c = '.'

/-- Match of `_clock_pattern` = `\x7b\s*\[%clk\s+([0-9:\.]+)\]\s*\x7d`
anchored at the start of `s`: returns the captured group and the suffix
after the whole match. -/
def matchClkAt (s : List Char) : Option (List Char × List Char) :=
  match s with
  | '\x7b' :: r1 =>
    let r2 := r1.dropWhile isPySpace
    if leadsWith "[%clk".data r2 then
      let r3 := r2.drop 5
      if (r3.takeWhile isPySpace).isEmpty then none
      else
        let r4 := r3.dropWhile isPySpace
        let dg := r4.takeWhile isClkChar
        if dg.isEmpty then none
        else
          match r4.dropWhile isClkChar with
          | ']' :: r5 =>
            match r5.dropWhile isPySpace with
            | '\x7d' :: r6 => some (dg, r6)
            | _ => none
          | _ => none
    else none
  | _ => none

/-- `_clock_pattern.search`: group 1 of the leftmost match. -/
def findClk : List Char → Option (List Char)
  | [] => none
  | c :: rest =>
    match matchClkAt (c :: rest) with
    | some p => some p.1
    | none => findClk rest

/-- Fuelled scanner for `_clock_pattern.sub('', s)`: remove every
non-overlapping match, scanning left to right. -/
def removeClkF : Nat → List Char → List Char
  | 0, s => s
  | _ + 1, [] => []
  | n + 1, c :: rest =>
    match matchClkAt (c :: rest) with
    | some p => removeClkF n p.2
    | none => c :: removeClkF n rest

/-- `_clock_pattern.sub('', s)` (a match consumes at least one character,
so fuel `length + 1` always suffices). -/
def removeClk (s : List Char) : List Char :=
  removeClkF (s.length + 1) s

/-- A side's parsed move: the `{"move": ..., "clock": ...}` dict of
`_extract_move_and_clock`. -/
structure MoveEntry where
  move : Option (List Char)
  clock : Option (List Char)
deriving DecidableEq, Repr

/-- `_extract_move_and_clock`. -/
def extract_move_and_clock (colorText : List Char) : MoveEntry :=
  let t := pyStrip colorText
  let clk := findClk t
  let t2 := match clk with
    | some _ => pyStrip (removeClk t)
    | none => t
  { move := if t2.isEmpty then none else some (splitSpace1 t2).1
    clock := clk }

/-- Lookahead `(?=\d+\.\s)` of the round-chunk split pattern, anchored at
the start of `s`. -/
def marksRound (s : List Char) : Bool :=
  match s.dropWhile isDigit09 with
  | '.' :: c :: _ => !(s.takeWhile isDigit09).isEmpty && isPySpace c
  | _ => false

/-- `re.split(r'(?<=\s)(?=\d+\.\s)', s)`: cut before every position whose
previous character is whitespace and whose suffix starts a round marker.
`cur` holds the current chunk reversed; its head is the previous character. -/
def splitRoundsAux (cur : List Char) : List Char → List (List Char)
  | [] => [cur.reverse]
  | c :: rest =>
    if (match cur with | p :: _ => isPySpace p | [] => false)
        && marksRound (c :: rest) then
      cur.reverse :: splitRoundsAux [c] rest
    else splitRoundsAux (c :: cur) rest

/-- `re.match(r'^(\d+)\.\s*', chunk)` combined with the following
`re.sub(r'^\d+\.\s*', '', chunk)`: the round number and the text after
the marker and its trailing whitespace. -/
def matchRoundNum (chunk : List Char) : Option (Nat × List Char) :=
  let dg := chunk.takeWhile isDigit09
  match chunk.dropWhile isDigit09 with
  | '.' :: r =>
    if dg.isEmpty then none
    else some (dg.foldl (fun n c => n * 10 + (c.toNat - 48)) 0,
               r.dropWhile isPySpace)
  | _ => none

/-- Match of `\s+<rdigits>\.\.\.\s+` anchored at the start of `s`:
the suffix after the whole match. -/
def matchBlackSplitAt (rdigits : List Char) (s : List Char) :
    Option (List Char) :=
  if (s.takeWhile isPySpace).isEmpty then none
  else
    let r1 := s.dropWhile isPySpace
    if leadsWith rdigits r1 then
      match r1.drop rdigits.length with
      | '.' :: '.' :: '.' :: r2 =>
        if (match r2 with | c :: _ => isPySpace c | [] => false) then
          some (r2.dropWhile isPySpace)
        else none
      | _ => none
    else none

/-- `re.split(rf'\s+{R}\.\.\.\s+', s, maxsplit=1)`: the text before the
leftmost match and the text after it, when a match exists. -/
def splitBlack (rdigits : List Char) : List Char → Option (List Char × List Char)
  | [] => none
  | c :: rest =>
    match matchBlackSplitAt rdigits (c :: rest) with
    | some post => some ([], post)
    | none =>
      match splitBlack rdigits rest with
      | some p => some (c :: p.1, p.2)
      | none => none

/-- One round's parsed moves: white entry always present, black entry
present only when non-empty black text was split off. -/
structure RoundMoves where
  white : MoveEntry
  black : Option MoveEntry
deriving DecidableEq, Repr

/-- Body of the `for chunk in round_chunks` loop of `_parse_moves`. -/
def parseMovesStep (rounds : List (Nat × RoundMoves)) (chunk0 : List Char) :
    List (Nat × RoundMoves) :=
  let chunk := pyStrip chunk0
  if chunk.isEmpty then rounds
  else
    match matchRoundNum chunk with
    | none => rounds
    | some (r, rest) =>
      let afterWhite := pyStrip rest
      let p := match splitBlack (Nat.repr r).data afterWhite with
        | some q => (pyStrip q.1, some (pyStrip q.2))
        | none => (afterWhite, none)
      let blackEntry := match p.2 with
        | some b => if b.isEmpty then none else some (extract_move_and_clock b)
        | none => none
      dictSet rounds r { white := extract_move_and_clock p.1, black := blackEntry }

/-- `_parse_moves`. -/
def parse_moves (pgnMoves : List Char) : List (Nat × RoundMoves) :=
  (splitRoundsAux [] (pyStrip pgnMoves)).foldl parseMovesStep []

/-- `ParsedNotation` in the spec's vocabulary: headers, optional result
token, per-round moves (`parse_pgn`'s result triple). -/
structure ParsedPgn where
  headers : List (List Char × List Char)
  result : Option (List Char)
  moves : List (Nat × RoundMoves)
deriving DecidableEq, Repr

/-- `parse_pgn` (`parseNotation`): any exception of the source is embedded
as `none`. -/
def parse_pgn (pgn : List Char) : Option ParsedPgn :=
  match split_pgn_headers_and_moves pgn with
  | none => none
  | some (h, mv, res) =>
    match parse_pgn_headers h with
    | none => none
    | some hd => some { headers := hd, result := res, moves := parse_moves mv }

/-- The round-trip input of the spec's testable property. -/
def testPgn : String :=
  "[Event \"Test\"]\n\n1. e4 \x7b[%clk 0:10:00]\x7d e5 \x7b[%clk 0:09:55]\x7d 2. Nf3 1-0"

end ChessGuru

namespace ChessGuru

/-! ## Facts about header parsing, toward claim C8 -/

/-- A header line in the form the source can consume: after
`line.strip("[]")` a space must remain for the `split(" ", 1)` unpack. -/
def headerLineOk (line : List Char) : Prop :=
  ' ' ∈ pyStripChars ['[', ']'] line

instance (line : List Char) : Decidable (headerLineOk line) := by
  unfold headerLineOk; infer_instance

theorem splitSpace1_snd_isSome (s : List Char) :
    (splitSpace1 s).2.isSome = true ↔ ' ' ∈ s := by
  induction s with
  | nil => simp [splitSpace1]
  | cons c rest ih =>
    by_cases hc : c = ' '
    · subst hc; simp [splitSpace1]
    · simp [splitSpace1, hc, ih, Ne.symm hc]

theorem parseHeaderLine_isSome (line : List Char) :
    (parseHeaderLine line).isSome = true ↔ headerLineOk line := by
  rw [headerLineOk, ← splitSpace1_snd_isSome]
  simp only [parseHeaderLine]
  rcases h : splitSpace1 (pyStripChars ['[', ']'] line) with ⟨k, v⟩
  cases v <;> simp

theorem parsePgnHeadersAux_isSome (ls : List (List Char)) :
    ∀ acc, (parsePgnHeadersAux acc ls).isSome = true ↔
      ∀ l ∈ ls, headerLineOk l := by
  induction ls with
  | nil => intro acc; simp [parsePgnHeadersAux]
  | cons l ls ih =>
    intro acc
    rcases h : parseHeaderLine l with _ | kv
    · have hbad : ¬ headerLineOk l := by
        have := parseHeaderLine_isSome l
        rw [h] at this; simpa using this.symm
      simp [parsePgnHeadersAux, h, hbad]
    · have hgood : headerLineOk l := by
        have := parseHeaderLine_isSome l
        rw [h] at this; simpa using this.mp
      simp [parsePgnHeadersAux, h, ih, hgood]

theorem parse_pgn_headers_isSome (block : List Char) :
    (parse_pgn_headers block).isSome = true ↔
      ∀ l ∈ pySplitlines block, headerLineOk l := by
  unfold parse_pgn_headers
  exact parsePgnHeadersAux_isSome (pySplitlines block) []

end ChessGuru

namespace ChessGuru

/-- C2 (counterexample): on the spec's exact round-trip input, `parse_pgn`
does not return the claimed structure: the claim expects round 1 to carry
a black entry `e5` with clock `0:09:55`, but the source only recognises a
black side after an explicit `R...` marker, so round 1 has no black entry. -/
theorem claim_C2_counterexample :
    parse_pgn testPgn.data ≠
      some { headers := [("Event".data, "Test".data)]
             result := some "1-0".data
             moves := [(1, { white := { move := some "e4".data, clock := some "0:10:00".data }
                             black := some { move := some "e5".data, clock := some "0:09:55".data } }),
                       (2, { white := { move := some "Nf3".data, clock := none }
                             black := none })] } := by
  decide

/-- C2 (amended): the spec's round-trip input parses to
`headers = {Event: "Test"}`, `result = "1-0"`, and
`rounds = {1: {white: {move: "e4", clock: "0:10:00"}}, 2: {white: {move: "Nf3", clock: absent}}}`:
round 1 keeps white's move `e4` with the first clock annotation found in
the chunk and has no black entry (the black text `e5` is only split off
at an explicit `1...` marker, which this input lacks), and round 2 has
only white's `Nf3`. -/
theorem claim_C2_amended :
    parse_pgn testPgn.data =
      some { headers := [("Event".data, "Test".data)]
             result := some "1-0".data
             moves := [(1, { white := { move := some "e4".data, clock := some "0:10:00".data }
                             black := none }),
                       (2, { white := { move := some "Nf3".data, clock := none }
                             black := none })] } := by
  decide

end ChessGuru

namespace ChessGuru

/-- C8: `parse_pgn` fails exactly when the blank-line header/movetext
separator is absent or some header line is malformed (after stripping
enclosing brackets no space remains for the key/value split); with the
separator present and every header line well formed it succeeds, and in
particular a movetext without a trailing result token parses with the
result component absent rather than failing. -/
theorem claim_C8 :
    (∀ p : List Char, (parse_pgn p).isSome = true ↔
      ∃ hb rest, splitSub "\n\n".data p = some (hb, rest) ∧
        ∀ l ∈ pySplitlines hb, headerLineOk l) ∧
    (∀ p hb rest, splitSub "\n\n".data p = some (hb, rest) →
      (∀ l ∈ pySplitlines hb, headerLineOk l) →
      (∀ t ∈ resultTokens, trailsWith t (pyStrip rest) = false) →
      ∃ hd rd, parse_pgn p = some { headers := hd, result := none, moves := rd }) := by
  constructor
  · intro p
    simp only [parse_pgn, split_pgn_headers_and_moves]
    rcases hs : splitSub "\n\n".data p with _ | ⟨hb, rest⟩
    · simp
    · rcases hh : parse_pgn_headers hb with _ | hd
      · have hbad : ¬ ∀ l ∈ pySplitlines hb, headerLineOk l := by
          have hiff := parse_pgn_headers_isSome hb
          rw [hh] at hiff
          simpa using hiff.symm
        simp [hh, hbad]
      · have hgood : ∀ l ∈ pySplitlines hb, headerLineOk l := by
          have hiff := parse_pgn_headers_isSome hb
          rw [hh] at hiff
          exact hiff.mp rfl
        simp only [hh]
        simp
        exact hgood
  · intro p hb rest hs hok hnores
    have hfind : resultTokens.find? (fun t => trailsWith t (pyStrip rest)) = none := by
      rw [List.find?_eq_none]
      intro t ht
      simp [hnores t ht]
    obtain ⟨hd, hhd⟩ := Option.isSome_iff_exists.mp
      ((parse_pgn_headers_isSome hb).mpr hok)
    refine ⟨hd, parse_moves (extractEndResult (pyStrip rest)).1, ?_⟩
    simp only [parse_pgn, split_pgn_headers_and_moves, hs, extractEndResult, hfind, hhd]

/-- Witness for C8 at the concrete input `[Event "T"]\n\n1. e4`: the
input has the separator and a well-formed header line, so parsing
succeeds, and since the movetext carries no trailing result token the
result component is absent. -/
theorem claim_C8_witness :
    (parse_pgn "[Event \"T\"]\n\n1. e4".data).isSome = true ∧
    ∃ hd rd, parse_pgn "[Event \"T\"]\n\n1. e4".data =
      some { headers := hd, result := none, moves := rd } := by
  constructor
  · exact (claim_C8.1 "[Event \"T\"]\n\n1. e4".data).mpr
      ⟨"[Event \"T\"]".data, "1. e4".data, by decide, by decide⟩
  · exact claim_C8.2 "[Event \"T\"]\n\n1. e4".data "[Event \"T\"]".data
      "1. e4".data (by decide) (by decide) (by decide)

end ChessGuru

namespace ChessGuru

/-! ## Time bounds (`utils.py`) and the `get_games` orchestration (`api.py`) -/

/-- Embedding of `datetime.datetime`: `wall` encodes the civil (naive)
field reading as seconds since the epoch, `tz` the `tzinfo` UTC offset in
seconds (`none` for a naive value). -/
structure PyDateTime where
  wall : Int
  tz : Option Int
deriving DecidableEq, Repr

/-- The UTC instant an aware datetime denotes: its wall reading minus its
offset (Python compares aware datetimes by this instant). -/
def utcInstant (d : PyDateTime) : Int :=
  d.wall - d.tz.getD 0

/-- `to_utc_dt`: `None` passes through, a naive value gets UTC attached
by `replace` (wall reading unchanged), an aware value is converted by
`astimezone` (instant unchanged, offset zero). -/
def to_utc_dt : Option PyDateTime → Option PyDateTime
  | none => none
  | some d =>
    match d.tz with
    | none => some { wall := d.wall, tz := some 0 }
    | some off => some { wall := d.wall - off, tz := some 0 }

/-- Days-to-civil conversion on the proleptic Gregorian calendar, giving
the `(year, month, day)` a UTC `datetime` carries for a given day count
since 1970-01-01. -/
def civilFromDays (z0 : Int) : Int × Int × Int :=
  let z := z0 + 719468
  let era := Int.fdiv z 146097
  let doe := z - era * 146097
  let yoe := Int.fdiv (doe - Int.fdiv doe 1460 + Int.fdiv doe 36524 -
    Int.fdiv doe 146096) 365
  let y := yoe + era * 400
  let doy := doe - (365 * yoe + Int.fdiv yoe 4 - Int.fdiv yoe 100)
  let mp := Int.fdiv (5 * doy + 2) 153
  let m := mp + (if mp < 10 then 3 else -9)
  (if m ≤ 2 then y + 1 else y, m, doy - Int.fdiv (153 * mp + 2) 5 + 1)

/-- The `(.year, .month)` pair of the UTC datetime at a given instant. -/
def yearMonthOfInstant (t : Int) : Int × Int :=
  let c := civilFromDays (Int.fdiv t 86400)
  (c.1, c.2.1)

/-- `urlparse(url).path` for the `scheme://host/...` shaped locators of
the archive index: the text after the authority (which ends at the first
`/` following `://`), truncated at the first `?` or `#`; without `://`
everything up to `?`/`#` is path. -/
def urlPath (u : List Char) : List Char :=
  let noScheme := match splitSub "://".data u with
    | some p => p.2.dropWhile (fun c => c ≠ '/')
    | none => u
  noScheme.takeWhile (fun c => c ≠ '?' && c ≠ '#')

/-- `s.split(sep)` for a single-character separator, without limit. -/
def splitAll (sep : Char) : List Char → List (List Char)
  | [] => [[]]
  | c :: rest =>
    if c = sep then [] :: splitAll sep rest
    else
      match splitAll sep rest with
      | p :: ps => (c :: p) :: ps
      | [] => [[c]]

/-- The digit run of `int(s)` after the optional sign: ASCII digits with
single underscores allowed only between digits. -/
def parseDigitsU : List Char → Bool → Option Nat → Option Nat
  | [], afterU, acc => if afterU then none else acc
  | c :: rest, afterU, acc =>
    if isDigit09 c then
      parseDigitsU rest false (some ((acc.getD 0) * 10 + (c.toNat - 48)))
    else if c = '_' then
      match acc with
      | none => none
      | some _ => if afterU then none else parseDigitsU rest true acc
    else none

/-- `int(s)`: optional surrounding whitespace, optional sign, a non-empty
digit run; anything else raises (`none`). -/
def pyInt (s : List Char) : Option Int :=
  match pyStrip s with
  | '+' :: r => (parseDigitsU r false none).map Int.ofNat
  | '-' :: r => (parseDigitsU r false none).map (fun n => -(n : Int))
  | r => (parseDigitsU r false none).map Int.ofNat

/-- `parse_archive_year_month`: the locator's final two path segments as
integers; `none` embeds the `ValueError`/`IndexError` raised on missing
or non-numeric segments. -/
def parse_archive_year_month (u : List Char) : Option (Int × Int) :=
  let parts := splitAll '/' (pyRStripChars ['/'] (urlPath u))
  match parts.reverse with
  | mth :: yr :: _ =>
    match pyInt yr, pyInt mth with
    | some y, some m => some (y, m)
    | _, _ => none
  | _ => none

/-- Python tuple `<` on `(year, month)` pairs: lexicographic, year first. -/
def tupLt (a b : Int × Int) : Bool :=
  a.1 < b.1 || (a.1 = b.1 && a.2 < b.2)

/-- `month_in_range` of `get_games`: not before `start_ym` (when given)
and not after `end_ym` (when given). -/
def month_in_range (startYm endYm : Option (Int × Int)) (ym : Int × Int) : Bool :=
  (match startYm with
   | some s => !tupLt ym s
   | none => true) &&
  (match endYm with
   | some e => !tupLt e ym
   | none => true)

/-- The list comprehension `[u for u in archive_urls if month_in_range(u)]`:
scans left to right, raising (here `Except.error` with the locator) at the
first locator whose year/month fails to parse. -/
def filterUrlsGo (startYm endYm : Option (Int × Int)) :
    List (List Char) → Except (List Char) (List (List Char))
  | [] => .ok []
  | u :: rest =>
    match parse_archive_year_month u with
    | none => .error u
    | some ym =>
      match filterUrlsGo startYm endYm rest with
      | .error e => .error e
      | .ok kept => .ok (if month_in_range startYm endYm ym then u :: kept else kept)

/-- The archive-URL filtering block of `get_games`: with no bound the list
is returned unchanged (locators are then never parsed); otherwise the
bounds' `(year, month)` pairs delimit the kept locators. -/
def filterMonthUrls (fromDt toDt : Option PyDateTime) (urls : List (List Char)) :
    Except (List Char) (List (List Char)) :=
  match fromDt, toDt with
  | none, none => .ok urls
  | _, _ =>
    filterUrlsGo (fromDt.map (fun d => yearMonthOfInstant (utcInstant d)))
      (toDt.map (fun d => yearMonthOfInstant (utcInstant d))) urls

/-- One raw game record of a month payload: the `end_time` unix seconds
when present, the raw notation text when present, the remaining fields as
an opaque bag. -/
structure GameRecord where
  end_time : Option Int
  pgn : Option (List Char)
  extra : List (List Char × List Char)
deriving DecidableEq, Repr

/-- A game as returned in the result: the raw record plus the optional
`parsed_pgn` attachment. -/
structure AnnotatedGame where
  base : GameRecord
  parsed_pgn : Option ParsedPgn
deriving DecidableEq, Repr

/-- One month's fetched payload: its games plus the payload's other
fields as an opaque bag. -/
structure MonthPayload where
  games : List GameRecord
  extra : List (List Char × List Char)
deriving DecidableEq, Repr

/-- A month entry of the result: the payload's other fields with `games`
replaced by the filtered, annotated list. -/
structure MonthResult where
  games : List AnnotatedGame
  extra : List (List Char × List Char)
deriving DecidableEq, Repr

/-- An exception value as consumed by `repr()`: class name and message. -/
structure ExcInfo where
  ename : List Char
  emsg : List Char
deriving DecidableEq, Repr

/-- `repr(exc)` (message quoting kept, escaping elided). -/
def reprExc (e : ExcInfo) : List Char :=
  e.ename ++ "('".data ++ e.emsg ++ "')".data

/-- The per-game time filter of `get_games`: with no bound every game
passes; with a bound a game lacking `end_time` is dropped, and otherwise
the end instant must be at or after `from` and at or before `to`. -/
def timeKeep (fromDt toDt : Option PyDateTime) (g : GameRecord) : Bool :=
  if fromDt.isSome || toDt.isSome then
    match g.end_time with
    | none => false
    | some t =>
      (match fromDt with
       | some f => !decide (t < utcInstant f)
       | none => true) &&
      (match toDt with
       | some tt => !decide (utcInstant tt < t)
       | none => true)
  else true

/-- One iteration of the games loop of `get_games`: `none` when the time
filter drops the game, otherwise the kept record, annotated when a
non-empty notation text parses (a parse failure is caught and leaves the
record unannotated). -/
def processGame (fromDt toDt : Option PyDateTime) (g : GameRecord) :
    Option AnnotatedGame :=
  if timeKeep fromDt toDt g then
    some { base := g
           parsed_pgn := match g.pgn with
             | some p => if p.isEmpty then none else parse_pgn p
             | none => none }
  else none

/-- The per-month payload processing of `get_games`: filter and annotate
the games, pass the payload's other fields through. -/
def processMonth (fromDt toDt : Option PyDateTime) (r : MonthPayload) : MonthResult :=
  { games := r.games.filterMap (processGame fromDt toDt), extra := r.extra }

/-- The `for u, r in zip(filtered_urls, monthly_datas)` loop: a failed
fetch records `repr(exc)` under its locator in `errors`, a successful one
records the processed payload under its locator in `months`. -/
def assembleLoop (fromDt toDt : Option PyDateTime) :
    List (List Char × Except ExcInfo MonthPayload) →
    List (List Char × MonthResult) → List (List Char × List Char) →
    List (List Char × MonthResult) × List (List Char × List Char)
  | [], months, errors => (months, errors)
  | (u, .error e) :: rest, months, errors =>
    assembleLoop fromDt toDt rest months (dictSet errors u (reprExc e))
  | (u, .ok r) :: rest, months, errors =>
    assembleLoop fromDt toDt rest (dictSet months u (processMonth fromDt toDt r)) errors

/-- The failure modes with which `get_games` raises. -/
inductive GError
  | validation (msg : List Char)
  | indexFetch (e : ExcInfo)
  | locator (u : List Char)
deriving DecidableEq, Repr

/-- The aggregate result dict of `get_games` (`from_ts`/`to_ts` kept as
the converted datetimes rather than their iso renderings). -/
structure AggregateResult where
  username : List Char
  archives : List (List Char)
  months : List (List Char × MonthResult)
  errors : List (List Char × List Char)
  fromTs : Option PyDateTime
  toTs : Option PyDateTime
deriving DecidableEq, Repr

/-- The bound validation of `get_games`: both bounds present and
`from_dt > to_dt` (datetime objects are always truthy). -/
def boundsInvalid (fromDt toDt : Option PyDateTime) : Bool :=
  match fromDt, toDt with
  | some f, some t => decide (utcInstant t < utcInstant f)
  | _, _ => false

/-- `ChesscomAPI.get_games`, its environment made explicit: the outcome
of the `get_archives` index fetch, and the outcome each gathered month
fetch settles to (one per filtered locator, in order).  Following the
source, the index fetch is awaited first, then the bounds are converted
and validated, then the locators are filtered, then the fan-out results
are assembled. -/
def get_games (username : List Char)
    (indexOutcome : Except ExcInfo (List (List Char)))
    (from_ts to_ts : Option PyDateTime)
    (outcomes : List (Except ExcInfo MonthPayload)) :
    Except GError AggregateResult :=
  match indexOutcome with
  | .error e => .error (.indexFetch e)
  | .ok archive_urls =>
    let from_dt := to_utc_dt from_ts
    let to_dt := to_utc_dt to_ts
    if boundsInvalid from_dt to_dt then
      .error (.validation "from_ts must be <= to_ts".data)
    else
      match filterMonthUrls from_dt to_dt archive_urls with
      | .error u => .error (.locator u)
      | .ok filtered =>
        let p := assembleLoop from_dt to_dt (filtered.zip outcomes) [] []
        .ok { username := username, archives := filtered, months := p.1,
              errors := p.2, fromTs := from_dt, toTs := to_dt }

end ChessGuru

namespace ChessGuru

/-- C10: `to_utc_dt` maps `None` to `None`, interprets a timezone-naive
datetime as already UTC (it attaches the UTC offset without changing the
wall-clock reading, so the instant becomes the wall reading itself), and
converts an aware datetime to the equivalent instant in UTC; `get_games`
therefore reads naive `from_ts`/`to_ts` bounds as UTC. -/
theorem claim_C10 :
    to_utc_dt none = none ∧
    (∀ w : Int, to_utc_dt (some ⟨w, none⟩) = some ⟨w, some 0⟩ ∧
      utcInstant ⟨w, some 0⟩ = w) ∧
    (∀ w off : Int, to_utc_dt (some ⟨w, some off⟩) = some ⟨w - off, some 0⟩ ∧
      utcInstant ⟨w - off, some 0⟩ = utcInstant ⟨w, some off⟩) := by
  refine ⟨rfl, fun w => ⟨rfl, ?_⟩, fun w off => ⟨rfl, ?_⟩⟩ <;> simp [utcInstant]

/-- C1 (counterexample): at a concrete call with `from > to` whose
archive-index fetch fails, `get_games` raises the index-fetch error and
not the `ValueError`: the index fetch is consumed before the bound check,
so a fetch-capability invocation is observed before any validation error
can be raised. -/
theorem claim_C1_counterexample :
    get_games "user".data (.error ⟨"ClientError".data, "boom".data⟩)
        (some ⟨100, some 0⟩) (some ⟨0, some 0⟩) [] =
      .error (.indexFetch ⟨"ClientError".data, "boom".data⟩) ∧
    (Except.error (GError.indexFetch ⟨"ClientError".data, "boom".data⟩) :
        Except GError AggregateResult) ≠
      .error (.validation "from_ts must be <= to_ts".data) := by
  refine ⟨rfl, fun h => ?_⟩
  exact absurd (Except.error.inj h) (by decide)

/-- C1 (amended): when the UTC-normalised bounds satisfy `from > to`,
`get_games` raises the `ValueError` after the archive-index fetch
succeeds and before the month fan-out: the result is the validation
error whatever the month outcomes are, so no month fetch outcome is
consumed. -/
theorem claim_C1_amended (username : List Char) (urls : List (List Char))
    (from_ts to_ts : Option PyDateTime) (outs : List (Except ExcInfo MonthPayload))
    (h : boundsInvalid (to_utc_dt from_ts) (to_utc_dt to_ts) = true) :
    get_games username (.ok urls) from_ts to_ts outs =
      .error (.validation "from_ts must be <= to_ts".data) := by
  simp [get_games, h]

/-- Witness for the amended C1 at concrete naive bounds with
`from > to`. -/
theorem claim_C1_witness :
    boundsInvalid (to_utc_dt (some ⟨100, none⟩)) (to_utc_dt (some ⟨0, none⟩)) = true ∧
    get_games "user".data (.ok ["a".data]) (some ⟨100, none⟩) (some ⟨0, none⟩) [] =
      .error (.validation "from_ts must be <= to_ts".data) :=
  ⟨by decide, claim_C1_amended "user".data ["a".data] (some ⟨100, none⟩)
    (some ⟨0, none⟩) [] (by decide)⟩

/-- Python tuple `<=` on `(year, month)` pairs, the comparison the claim
states the kept range with. -/
def tupLe (a b : Int × Int) : Bool :=
  a.1 < b.1 || (a.1 = b.1 && a.2 ≤ b.2)

theorem not_tupLt_eq_tupLe (a b : Int × Int) : (!tupLt b a) = tupLe a b := by
  rcases a with ⟨x, y⟩
  rcases b with ⟨u, v⟩
  rw [Bool.eq_iff_iff]
  simp only [tupLt, tupLe, Bool.not_eq_true', Bool.or_eq_false_iff, Bool.or_eq_true,
    Bool.and_eq_true, Bool.and_eq_false_iff, decide_eq_true_eq, decide_eq_false_iff_not]
  constructor
  · intro h
    rcases h with ⟨h1, h2⟩
    rcases h2 with h2 | h2
    · left; omega
    · rcases eq_or_lt_of_le (le_of_not_lt h1) with h3 | h3
      · right; constructor; omega; omega
      · left; exact h3
  · intro h
    rcases h with h | ⟨h1, h2⟩
    · constructor
      · omega
      · left; omega
    · constructor
      · omega
      · right; omega

theorem filterUrlsGo_eq_filter (s e : Option (Int × Int)) (urls : List (List Char))
    (h : ∀ u ∈ urls, (parse_archive_year_month u).isSome = true) :
    filterUrlsGo s e urls = .ok (urls.filter (fun u =>
      match parse_archive_year_month u with
      | some ym => month_in_range s e ym
      | none => false)) := by
  induction urls with
  | nil => rfl
  | cons u rest ih =>
    obtain ⟨ym, hym⟩ := Option.isSome_iff_exists.mp (h u (by simp))
    rw [filterUrlsGo, hym, ih (fun v hv => h v (by simp [hv]))]
    by_cases hk : month_in_range s e ym = true <;>
      simp [List.filter_cons, hym, hk]

/-- C4: the month reference filter of `get_games` returns the archive
list unchanged when neither bound is given; when a bound is given and
every locator's final two path segments parse as year and month, it
returns the order-preserving sublist of exactly those locators whose
`(year, month)` satisfies `start_ym <= (year, month) <= end_ym` under
lexicographic tuple comparison, `start_ym`/`end_ym` being the UTC
`(year, month)` of `from`/`to` when present and unconstrained otherwise. -/
theorem claim_C4 (fromDt toDt : Option PyDateTime) (urls : List (List Char)) :
    (fromDt = none → toDt = none → filterMonthUrls fromDt toDt urls = .ok urls) ∧
    ((fromDt.isSome = true ∨ toDt.isSome = true) →
      (∀ u ∈ urls, (parse_archive_year_month u).isSome = true) →
      filterMonthUrls fromDt toDt urls = .ok (urls.filter (fun u =>
        match parse_archive_year_month u with
        | some ym =>
          (match fromDt.map (fun d => yearMonthOfInstant (utcInstant d)) with
           | some s => tupLe s ym
           | none => true) &&
          (match toDt.map (fun d => yearMonthOfInstant (utcInstant d)) with
           | some e => tupLe ym e
           | none => true)
        | none => false))) := by
  constructor
  · intro h1 h2
    subst h1
    subst h2
    rfl
  · intro hsome hparse
    have hpred : ∀ ym : Int × Int,
        month_in_range (fromDt.map (fun d => yearMonthOfInstant (utcInstant d)))
          (toDt.map (fun d => yearMonthOfInstant (utcInstant d))) ym =
        ((match fromDt.map (fun d => yearMonthOfInstant (utcInstant d)) with
          | some s => tupLe s ym
          | none => true) &&
         (match toDt.map (fun d => yearMonthOfInstant (utcInstant d)) with
          | some e => tupLe ym e
          | none => true)) := by
      intro ym
      unfold month_in_range
      rcases fromDt.map (fun d => yearMonthOfInstant (utcInstant d)) with _ | s <;>
        rcases toDt.map (fun d => yearMonthOfInstant (utcInstant d)) with _ | e <;>
        simp [not_tupLt_eq_tupLe]
    have hgo := filterUrlsGo_eq_filter
      (fromDt.map (fun d => yearMonthOfInstant (utcInstant d)))
      (toDt.map (fun d => yearMonthOfInstant (utcInstant d))) urls hparse
    have hmain : filterMonthUrls fromDt toDt urls =
        filterUrlsGo (fromDt.map (fun d => yearMonthOfInstant (utcInstant d)))
          (toDt.map (fun d => yearMonthOfInstant (utcInstant d))) urls := by
      rcases hf : fromDt with _ | f <;> rcases ht : toDt with _ | t <;>
        simp_all [filterMonthUrls]
    rw [hmain, hgo]
    congr 1
    apply List.filter_congr
    intro u hu
    rcases hym : parse_archive_year_month u with _ | ym
    · simp
    · simpa using hpred ym

/-- Witness for C4: no bound keeps the 1970 archive list unchanged, and
the bound Jan-1970 .. Feb-1970 keeps exactly the first two of the three
1970 month locators. -/
theorem claim_C4_witness :
    filterMonthUrls none none ["https://x/games/1970/01".data] =
      .ok ["https://x/games/1970/01".data] ∧
    filterMonthUrls (some ⟨0, some 0⟩) (some ⟨2678400, some 0⟩)
        ["https://x/games/1970/01".data, "https://x/games/1970/02".data,
         "https://x/games/1970/03".data] =
      .ok ["https://x/games/1970/01".data, "https://x/games/1970/02".data] := by
  constructor
  · exact (claim_C4 none none ["https://x/games/1970/01".data]).1 rfl rfl
  · rw [(claim_C4 (some ⟨0, some 0⟩) (some ⟨2678400, some 0⟩)
      ["https://x/games/1970/01".data, "https://x/games/1970/02".data,
       "https://x/games/1970/03".data]).2 (Or.inl rfl) (by decide)]
    rfl

end ChessGuru

namespace ChessGuru

/-! ## Association-list and assembly-loop lemmas -/

theorem dictGet_dictSet_same {α β : Type} [DecidableEq α]
    (m : List (α × β)) (k : α) (v : β) :
    dictGet (dictSet m k v) k = some v := by
  induction m with
  | nil => simp [dictSet, dictGet]
  | cons kv rest ih =>
    rcases kv with ⟨k', v'⟩
    by_cases h : k' = k
    · subst h
      simp [dictSet, dictGet]
    · simp [dictSet, dictGet, h, ih]

theorem dictGet_dictSet_other {α β : Type} [DecidableEq α]
    (m : List (α × β)) (k j : α) (v : β) (h : j ≠ k) :
    dictGet (dictSet m k v) j = dictGet m j := by
  induction m with
  | nil => simp [dictSet, dictGet, Ne.symm h]
  | cons kv rest ih =>
    rcases kv with ⟨k', v'⟩
    by_cases hk : k' = k
    · subst hk
      simp [dictSet, dictGet, Ne.symm h]
    · by_cases hj : k' = j <;> simp [dictSet, dictGet, hk, hj, ih, h]

theorem dictGet_eq_none_iff {α β : Type} [DecidableEq α]
    (m : List (α × β)) (k : α) :
    dictGet m k = none ↔ k ∉ dictKeys m := by
  induction m with
  | nil => simp [dictGet, dictKeys]
  | cons kv rest ih =>
    rcases kv with ⟨k', v'⟩
    by_cases h : k' = k
    · subst h
      simp [dictGet, dictKeys]
    · simp [dictGet, dictKeys, h, ih, Ne.symm h]

theorem mem_dictSet {α β : Type} [DecidableEq α]
    (m : List (α × β)) (k : α) (v : β) (x : α × β)
    (h : x ∈ dictSet m k v) : x ∈ m ∨ x = (k, v) := by
  induction m with
  | nil =>
    simp [dictSet] at h
    simp [h]
  | cons kv rest ih =>
    rcases kv with ⟨k', v'⟩
    by_cases hk : k' = k
    · subst hk
      simp only [dictSet, if_pos rfl] at h
      rcases List.mem_cons.mp h with h1 | h1
      · exact Or.inr h1
      · exact Or.inl (List.mem_cons_of_mem _ h1)
    · simp only [dictSet, if_neg hk] at h
      rcases List.mem_cons.mp h with h1 | h1
      · exact Or.inl (h1 ▸ List.mem_cons_self _ _)
      · rcases ih h1 with h2 | h2
        · exact Or.inl (List.mem_cons_of_mem _ h2)
        · exact Or.inr h2

theorem mem_dictKeys_dictSet {α β : Type} [DecidableEq α]
    (m : List (α × β)) (k j : α) (v : β)
    (h : j ∈ dictKeys (dictSet m k v)) : j ∈ dictKeys m ∨ j = k := by
  rcases List.mem_map.mp h with ⟨x, hx, hfx⟩
  rcases mem_dictSet m k v x hx with h1 | h1
  · exact Or.inl (hfx ▸ List.mem_map_of_mem Prod.fst h1)
  · subst h1
    exact Or.inr hfx.symm

end ChessGuru

namespace ChessGuru

theorem assembleLoop_mem_months (fd td : Option PyDateTime)
    (pairs : List (List Char × Except ExcInfo MonthPayload)) :
    ∀ ma ea u mr, (u, mr) ∈ (assembleLoop fd td pairs ma ea).1 →
      (u, mr) ∈ ma ∨ ∃ p, (u, Except.ok p) ∈ pairs ∧ mr = processMonth fd td p := by
  induction pairs with
  | nil =>
    intro ma ea u mr h
    exact Or.inl h
  | cons pr rest ih =>
    rcases pr with ⟨u', r'⟩
    intro ma ea u mr h
    cases r' with
    | error e =>
      simp only [assembleLoop] at h
      rcases ih ma (dictSet ea u' (reprExc e)) u mr h with h1 | ⟨p, hp, hm⟩
      · exact Or.inl h1
      · exact Or.inr ⟨p, List.mem_cons_of_mem _ hp, hm⟩
    | ok p' =>
      simp only [assembleLoop] at h
      rcases ih (dictSet ma u' (processMonth fd td p')) ea u mr h with h1 | ⟨p, hp, hm⟩
      · rcases mem_dictSet _ _ _ _ h1 with h2 | h2
        · exact Or.inl h2
        · injection h2 with h3 h4
          exact Or.inr ⟨p', by rw [h3]; exact List.mem_cons_self _ _, h4⟩
      · exact Or.inr ⟨p, List.mem_cons_of_mem _ hp, hm⟩

theorem assembleLoop_lookup_not_mem (fd td : Option PyDateTime)
    (pairs : List (List Char × Except ExcInfo MonthPayload)) :
    ∀ ma ea (u : List Char), u ∉ pairs.map Prod.fst →
      dictGet (assembleLoop fd td pairs ma ea).1 u = dictGet ma u ∧
      dictGet (assembleLoop fd td pairs ma ea).2 u = dictGet ea u := by
  induction pairs with
  | nil =>
    intro ma ea u _
    exact ⟨rfl, rfl⟩
  | cons pr rest ih =>
    rcases pr with ⟨u', r'⟩
    intro ma ea u h
    have hne : u ≠ u' := by
      intro hh
      apply h
      rw [List.map_cons, hh]
      exact List.mem_cons_self _ _
    have hrest : u ∉ rest.map Prod.fst := by
      intro hh
      apply h
      rw [List.map_cons]
      exact List.mem_cons_of_mem _ hh
    cases r' with
    | error e =>
      simp only [assembleLoop]
      have hh := ih ma (dictSet ea u' (reprExc e)) u hrest
      exact ⟨hh.1, by rw [hh.2, dictGet_dictSet_other _ _ _ _ hne]⟩
    | ok p' =>
      simp only [assembleLoop]
      have hh := ih (dictSet ma u' (processMonth fd td p')) ea u hrest
      exact ⟨by rw [hh.1, dictGet_dictSet_other _ _ _ _ hne], hh.2⟩

theorem assembleLoop_lookup_ok (fd td : Option PyDateTime)
    (pairs : List (List Char × Except ExcInfo MonthPayload)) :
    ∀ ma ea (u : List Char) (p : MonthPayload),
      (pairs.map Prod.fst).Nodup → (u, Except.ok p) ∈ pairs →
      dictGet (assembleLoop fd td pairs ma ea).1 u = some (processMonth fd td p) ∧
      dictGet (assembleLoop fd td pairs ma ea).2 u = dictGet ea u := by
  induction pairs with
  | nil =>
    intro ma ea u p _ hmem
    cases hmem
  | cons pr rest ih =>
    rcases pr with ⟨u', r'⟩
    intro ma ea u p hnd hmem
    simp only [List.map_cons, List.nodup_cons] at hnd
    rcases List.mem_cons.mp hmem with heq | hmem'
    · injection heq with h1 h2
      subst h1
      subst h2
      simp only [assembleLoop]
      have hh := assembleLoop_lookup_not_mem fd td rest
        (dictSet ma u (processMonth fd td p)) ea u hnd.1
      exact ⟨by rw [hh.1, dictGet_dictSet_same], hh.2⟩
    · have hu : u ∈ rest.map Prod.fst := List.mem_map_of_mem Prod.fst hmem'
      have hne : u ≠ u' := fun hh => hnd.1 (hh ▸ hu)
      cases r' with
      | error e =>
        simp only [assembleLoop]
        have hh := ih ma (dictSet ea u' (reprExc e)) u p hnd.2 hmem'
        exact ⟨hh.1, by rw [hh.2, dictGet_dictSet_other _ _ _ _ hne]⟩
      | ok q =>
        simp only [assembleLoop]
        exact ih (dictSet ma u' (processMonth fd td q)) ea u p hnd.2 hmem'

theorem assembleLoop_lookup_err (fd td : Option PyDateTime)
    (pairs : List (List Char × Except ExcInfo MonthPayload)) :
    ∀ ma ea (u : List Char) (e : ExcInfo),
      (pairs.map Prod.fst).Nodup → (u, Except.error e) ∈ pairs →
      dictGet (assembleLoop fd td pairs ma ea).2 u = some (reprExc e) ∧
      dictGet (assembleLoop fd td pairs ma ea).1 u = dictGet ma u := by
  induction pairs with
  | nil =>
    intro ma ea u e _ hmem
    cases hmem
  | cons pr rest ih =>
    rcases pr with ⟨u', r'⟩
    intro ma ea u e hnd hmem
    simp only [List.map_cons, List.nodup_cons] at hnd
    rcases List.mem_cons.mp hmem with heq | hmem'
    · injection heq with h1 h2
      subst h1
      subst h2
      simp only [assembleLoop]
      have hh := assembleLoop_lookup_not_mem fd td rest
        ma (dictSet ea u (reprExc e)) u hnd.1
      exact ⟨by rw [hh.2, dictGet_dictSet_same], hh.1⟩
    · have hu : u ∈ rest.map Prod.fst := List.mem_map_of_mem Prod.fst hmem'
      have hne : u ≠ u' := fun hh => hnd.1 (hh ▸ hu)
      cases r' with
      | error e' =>
        simp only [assembleLoop]
        have hh := ih ma (dictSet ea u' (reprExc e')) u e hnd.2 hmem'
        exact ⟨hh.1, hh.2⟩
      | ok q =>
        simp only [assembleLoop]
        have hh := ih (dictSet ma u' (processMonth fd td q)) ea u e hnd.2 hmem'
        exact ⟨hh.1, by rw [hh.2, dictGet_dictSet_other _ _ _ _ hne]⟩

theorem assembleLoop_keys_sub (fd td : Option PyDateTime)
    (pairs : List (List Char × Except ExcInfo MonthPayload)) :
    ∀ ma ea (u : List Char),
      (u ∈ dictKeys (assembleLoop fd td pairs ma ea).1 →
        u ∈ dictKeys ma ∨ u ∈ pairs.map Prod.fst) ∧
      (u ∈ dictKeys (assembleLoop fd td pairs ma ea).2 →
        u ∈ dictKeys ea ∨ u ∈ pairs.map Prod.fst) := by
  induction pairs with
  | nil =>
    intro ma ea u
    exact ⟨fun h => Or.inl h, fun h => Or.inl h⟩
  | cons pr rest ih =>
    rcases pr with ⟨u', r'⟩
    intro ma ea u
    cases r' with
    | error e =>
      simp only [assembleLoop]
      constructor
      · intro h
        rcases (ih ma (dictSet ea u' (reprExc e)) u).1 h with h1 | h1
        · exact Or.inl h1
        · exact Or.inr (by rw [List.map_cons]; exact List.mem_cons_of_mem _ h1)
      · intro h
        rcases (ih ma (dictSet ea u' (reprExc e)) u).2 h with h1 | h1
        · rcases mem_dictKeys_dictSet _ _ _ _ h1 with h2 | h2
          · exact Or.inl h2
          · exact Or.inr (by rw [List.map_cons, h2]; exact List.mem_cons_self _ _)
        · exact Or.inr (by rw [List.map_cons]; exact List.mem_cons_of_mem _ h1)
    | ok p' =>
      simp only [assembleLoop]
      constructor
      · intro h
        rcases (ih (dictSet ma u' (processMonth fd td p')) ea u).1 h with h1 | h1
        · rcases mem_dictKeys_dictSet _ _ _ _ h1 with h2 | h2
          · exact Or.inl h2
          · exact Or.inr (by rw [List.map_cons, h2]; exact List.mem_cons_self _ _)
        · exact Or.inr (by rw [List.map_cons]; exact List.mem_cons_of_mem _ h1)
      · intro h
        rcases (ih (dictSet ma u' (processMonth fd td p')) ea u).2 h with h1 | h1
        · exact Or.inl h1
        · exact Or.inr (by rw [List.map_cons]; exact List.mem_cons_of_mem _ h1)

theorem map_fst_zip_nodup {α β : Type} (as : List α) (bs : List β) (h : as.Nodup) :
    ((as.zip bs).map Prod.fst).Nodup := by
  induction as generalizing bs with
  | nil => simp
  | cons a as ih =>
    cases bs with
    | nil => simp
    | cons b bs =>
      rw [List.zip_cons_cons, List.map_cons, List.nodup_cons]
      refine ⟨?_, ih bs (List.nodup_cons.mp h).2⟩
      intro hmem
      rcases List.mem_map.mp hmem with ⟨x, hx, hfx⟩
      have hfx2 : x.1 = a := hfx
      exact (List.nodup_cons.mp h).1 (hfx2 ▸ (List.of_mem_zip hx).1)

theorem exists_snd_zip {α β : Type} :
    ∀ (as : List α) (bs : List β), as.length ≤ bs.length → ∀ u ∈ as,
      ∃ o, (u, o) ∈ as.zip bs
  | [], _, _, _, hu => absurd hu (by simp)
  | _ :: _, [], h, _, _ => absurd h (by simp)
  | a :: as, b :: bs, h, u, hu => by
    rcases List.mem_cons.mp hu with h1 | h1
    · exact ⟨b, by simp [h1]⟩
    · rcases exists_snd_zip as bs (by simpa using h) u h1 with ⟨o, ho⟩
      exact ⟨o, List.mem_cons_of_mem _ ho⟩

theorem zip_getElem_mem {α β : Type} (as : List α) (bs : List β) (i : Nat)
    (h1 : i < as.length) (h2 : i < bs.length) :
    (as[i], bs[i]) ∈ as.zip bs := by
  have hz : i < (as.zip bs).length := by
    rw [List.length_zip]
    omega
  have hge := @List.getElem_zip _ _ as bs i hz
  exact hge ▸ List.getElem_mem hz

end ChessGuru

namespace ChessGuru

theorem timeKeep_iff (fd td : Option PyDateTime) (g : GameRecord)
    (hsome : fd.isSome = true ∨ td.isSome = true) :
    timeKeep fd td g = true ↔
      ∃ e, g.end_time = some e ∧
        (∀ f, fd = some f → utcInstant f ≤ e) ∧
        (∀ t, td = some t → e ≤ utcInstant t) := by
  have hcond : (fd.isSome || td.isSome) = true := by
    rcases hsome with h | h <;> simp [h]
  unfold timeKeep
  rw [hcond, if_pos rfl]
  rcases hend : g.end_time with _ | e
  · simp
  · rcases fd with _ | f <;> rcases td with _ | t <;> simp

theorem get_games_ok_inv (username : List Char)
    (urls : List (List Char)) (from_ts to_ts : Option PyDateTime)
    (outs : List (Except ExcInfo MonthPayload)) (res : AggregateResult)
    (hres : get_games username (.ok urls) from_ts to_ts outs = .ok res) :
    boundsInvalid (to_utc_dt from_ts) (to_utc_dt to_ts) = false ∧
    filterMonthUrls (to_utc_dt from_ts) (to_utc_dt to_ts) urls = .ok res.archives ∧
    res.months = (assembleLoop (to_utc_dt from_ts) (to_utc_dt to_ts)
      (res.archives.zip outs) [] []).1 ∧
    res.errors = (assembleLoop (to_utc_dt from_ts) (to_utc_dt to_ts)
      (res.archives.zip outs) [] []).2 := by
  simp only [get_games] at hres
  by_cases hb : boundsInvalid (to_utc_dt from_ts) (to_utc_dt to_ts) = true
  · rw [if_pos hb] at hres
    cases hres
  · rw [if_neg hb] at hres
    rcases hf : filterMonthUrls (to_utc_dt from_ts) (to_utc_dt to_ts) urls with u | filtered
    · rw [hf] at hres
      cases hres
    · rw [hf] at hres
      have heq := Except.ok.inj hres
      subst heq
      exact ⟨by simpa using hb, rfl, rfl, rfl⟩

/-- C3: when at least one UTC-normalised bound is set, every game kept in
any month of the `get_games` result carries an `end_time` whose instant
is at or after `from` (when set) and at or before `to` (when set); and
the per-game filter keeps a record exactly when it has an `end_time` in
that inclusive range, so boundary instants are retained and a record
lacking `end_time` is excluded. -/
theorem claim_C3 (username : List Char) (urls : List (List Char))
    (from_ts to_ts : Option PyDateTime)
    (outs : List (Except ExcInfo MonthPayload)) (res : AggregateResult)
    (hsome : (to_utc_dt from_ts).isSome = true ∨ (to_utc_dt to_ts).isSome = true)
    (hres : get_games username (.ok urls) from_ts to_ts outs = .ok res) :
    (∀ u mr, (u, mr) ∈ res.months → ∀ ag ∈ mr.games,
      ∃ e, ag.base.end_time = some e ∧
        (∀ f, to_utc_dt from_ts = some f → utcInstant f ≤ e) ∧
        (∀ t, to_utc_dt to_ts = some t → e ≤ utcInstant t)) ∧
    (∀ g : GameRecord,
      timeKeep (to_utc_dt from_ts) (to_utc_dt to_ts) g = true ↔
        ∃ e, g.end_time = some e ∧
          (∀ f, to_utc_dt from_ts = some f → utcInstant f ≤ e) ∧
          (∀ t, to_utc_dt to_ts = some t → e ≤ utcInstant t)) := by
  obtain ⟨hb, hf, hm, he⟩ := get_games_ok_inv username urls from_ts to_ts outs res hres
  constructor
  · intro u mr hmem ag hag
    rw [hm] at hmem
    rcases assembleLoop_mem_months _ _ _ _ _ _ _ hmem with h0 | ⟨p, _, hmr⟩
    · cases h0
    · subst hmr
      rcases List.mem_filterMap.mp hag with ⟨g, _, hproc⟩
      unfold processGame at hproc
      by_cases hk : timeKeep (to_utc_dt from_ts) (to_utc_dt to_ts) g = true
      · rw [if_pos hk] at hproc
        have hbase : ag.base = g := by
          have := Option.some.inj hproc
          rw [← this]
        rcases (timeKeep_iff _ _ g hsome).mp hk with ⟨e, h1, h2, h3⟩
        exact ⟨e, by rw [hbase]; exact h1, h2, h3⟩
      · rw [if_neg hk] at hproc
        cases hproc
  · intro g
    exact timeKeep_iff _ _ g hsome

end ChessGuru

namespace ChessGuru

/-- Witness for C3 at a concrete bounded call: the kept game's
`end_time = 100` lies inside the inclusive UTC window `[0, 2678400]`. -/
theorem claim_C3_witness :
    ∃ e, ({ end_time := some 100, pgn := none, extra := [] } : GameRecord).end_time =
        some e ∧
      (∀ f, to_utc_dt (some ⟨0, some 0⟩) = some f → utcInstant f ≤ e) ∧
      (∀ t, to_utc_dt (some ⟨2678400, some 0⟩) = some t → e ≤ utcInstant t) := by
  refine ((claim_C3 "u".data ["https://x/games/1970/01".data] (some ⟨0, some 0⟩)
      (some ⟨2678400, some 0⟩)
      [Except.ok ⟨[⟨some 100, none, []⟩, ⟨some 9999999, none, []⟩, ⟨none, none, []⟩], []⟩]
      { username := "u".data
        archives := ["https://x/games/1970/01".data]
        months := [("https://x/games/1970/01".data,
          { games := [{ base := { end_time := some 100, pgn := none, extra := [] },
                        parsed_pgn := none }], extra := [] })]
        errors := []
        fromTs := some ⟨0, some 0⟩
        toTs := some ⟨2678400, some 0⟩ }
      (Or.inl rfl) rfl).2
    { end_time := some 100, pgn := none, extra := [] }).mp (by decide)

end ChessGuru

namespace ChessGuru

theorem mem_dictKeys_iff_get {α β : Type} [DecidableEq α]
    (m : List (α × β)) (k : α) :
    k ∈ dictKeys m ↔ dictGet m k ≠ none := by
  constructor
  · intro h hn
    exact (dictGet_eq_none_iff m k).mp hn h
  · intro h
    by_contra hc
    exact h ((dictGet_eq_none_iff m k).mpr hc)

/-- C6 (counterexample): the archive index is external input and may list
the same locator twice; when the two fetches of that locator settle
differently (here: one failure, one success) the locator appears as a key
of both `months` and `errors`, so the two key sets do not partition the
archives list. -/
theorem claim_C6_counterexample :
    (get_games "user".data (.ok ["a".data, "a".data]) none none
        [.error ⟨"E".data, "x".data⟩, .ok ⟨[], []⟩]).toOption.map
      (fun r => (decide ("a".data ∈ dictKeys r.months),
                 decide ("a".data ∈ dictKeys r.errors))) = some (true, true) := by
  rfl

/-- C6 (amended): provided the result's archive list has no duplicate
locator and every filtered locator received a fetch outcome, the keys of
`months` and of `errors` partition it: every archive locator is a key of
exactly one of the two maps, and every key of either map is an archive
locator.  (With a duplicated locator whose fetches settle differently the
same key can appear in both maps.) -/
theorem claim_C6_amended (username : List Char) (urls : List (List Char))
    (from_ts to_ts : Option PyDateTime) (outs : List (Except ExcInfo MonthPayload))
    (res : AggregateResult)
    (hres : get_games username (.ok urls) from_ts to_ts outs = .ok res)
    (hnd : res.archives.Nodup)
    (hlen : res.archives.length ≤ outs.length) :
    (∀ u ∈ res.archives,
      (u ∈ dictKeys res.months ∧ u ∉ dictKeys res.errors) ∨
      (u ∈ dictKeys res.errors ∧ u ∉ dictKeys res.months)) ∧
    (∀ u, u ∈ dictKeys res.months → u ∈ res.archives) ∧
    (∀ u, u ∈ dictKeys res.errors → u ∈ res.archives) := by
  obtain ⟨hb, hf, hm, he⟩ := get_games_ok_inv username urls from_ts to_ts outs res hres
  have hndz : ((res.archives.zip outs).map Prod.fst).Nodup :=
    map_fst_zip_nodup _ _ hnd
  refine ⟨?_, ?_, ?_⟩
  · intro u hu
    rcases exists_snd_zip res.archives outs hlen u hu with ⟨o, ho⟩
    cases o with
    | ok p =>
      have hl := assembleLoop_lookup_ok (to_utc_dt from_ts) (to_utc_dt to_ts)
        _ [] [] u p hndz ho
      left
      constructor
      · rw [hm, mem_dictKeys_iff_get, hl.1]
        simp
      · rw [he]
        intro hc
        exact (mem_dictKeys_iff_get _ _).mp hc hl.2
    | error e =>
      have hl := assembleLoop_lookup_err (to_utc_dt from_ts) (to_utc_dt to_ts)
        _ [] [] u e hndz ho
      right
      constructor
      · rw [he, mem_dictKeys_iff_get, hl.1]
        simp
      · rw [hm]
        intro hc
        exact (mem_dictKeys_iff_get _ _).mp hc hl.2
  · intro u hu
    rw [hm] at hu
    rcases (assembleLoop_keys_sub (to_utc_dt from_ts) (to_utc_dt to_ts)
        _ [] [] u).1 hu with h1 | h1
    · cases h1
    · rcases List.mem_map.mp h1 with ⟨x, hx, hfx⟩
      have hfx2 : x.1 = u := hfx
      exact hfx2 ▸ (List.of_mem_zip hx).1
  · intro u hu
    rw [he] at hu
    rcases (assembleLoop_keys_sub (to_utc_dt from_ts) (to_utc_dt to_ts)
        _ [] [] u).2 hu with h1 | h1
    · cases h1
    · rcases List.mem_map.mp h1 with ⟨x, hx, hfx⟩
      have hfx2 : x.1 = u := hfx
      exact hfx2 ▸ (List.of_mem_zip hx).1

/-- Witness for the amended C6 at a concrete two-archive call with one
failure: locator `a` lands in `months` only. -/
theorem claim_C6_witness :
    ("a".data ∈ dictKeys ([("a".data,
        ({ games := [], extra := [] } : MonthResult))]) ∧
      "a".data ∉ dictKeys [("b".data, "E('x')".data)]) ∨
    ("a".data ∈ dictKeys [("b".data, "E('x')".data)] ∧
      "a".data ∉ dictKeys ([("a".data,
        ({ games := [], extra := [] } : MonthResult))])) := by
  have h := (claim_C6_amended "user".data ["a".data, "b".data] none none
    [.ok ⟨[], []⟩, .error ⟨"E".data, "x".data⟩]
    { username := "user".data
      archives := ["a".data, "b".data]
      months := [("a".data, { games := [], extra := [] })]
      errors := [("b".data, "E('x')".data)]
      fromTs := none
      toTs := none }
    rfl (by decide) (by decide)).1 "a".data (by decide)
  exact h

end ChessGuru

namespace ChessGuru

/-- C5 (amended): when among the archive fetches of one `get_games`
call over a duplicate-free filtered archive list exactly one (the
`i`-th) fails, the result maps that reference's locator in `errors` to
the non-empty `repr` of the exception, that locator is absent from
`months`, and every other reference's locator is mapped in `months` to
exactly the processed payload it also gets in the counterfactual run
whose `i`-th fetch succeeds instead — sibling outcomes are untouched by
the failure.  (With a duplicated locator the failing and succeeding
fetches of the same locator can place it in both maps.) -/
theorem claim_C5 (username : List Char) (urls : List (List Char))
    (from_ts to_ts : Option PyDateTime)
    (outs : List (Except ExcInfo MonthPayload))
    (res res' : AggregateResult) (i : Nat) (e : ExcInfo) (q : MonthPayload)
    (hres : get_games username (.ok urls) from_ts to_ts outs = .ok res)
    (hres' : get_games username (.ok urls) from_ts to_ts
      (outs.set i (.ok q)) = .ok res')
    (hnd : res.archives.Nodup)
    (hlen : outs.length = res.archives.length)
    (hi : i < outs.length)
    (herr : outs.get ⟨i, hi⟩ = Except.error e)
    (hothers : ∀ j (hj : j < outs.length), j ≠ i →
      ∃ p, outs.get ⟨j, hj⟩ = Except.ok p) :
    ∃ hia : i < res.archives.length,
      dictGet res.errors (res.archives.get ⟨i, hia⟩) = some (reprExc e) ∧
      (reprExc e).length > 0 ∧
      dictGet res.months (res.archives.get ⟨i, hia⟩) = none ∧
      res'.archives = res.archives ∧
      ∀ j (hj : j < res.archives.length), j ≠ i →
        ∃ p, outs.get ⟨j, by omega⟩ = Except.ok p ∧
          dictGet res.months (res.archives.get ⟨j, hj⟩) =
            some (processMonth (to_utc_dt from_ts) (to_utc_dt to_ts) p) ∧
          dictGet res'.months (res.archives.get ⟨j, hj⟩) =
            some (processMonth (to_utc_dt from_ts) (to_utc_dt to_ts) p) := by
  obtain ⟨hb, hf, hm, he⟩ := get_games_ok_inv username urls from_ts to_ts outs res hres
  obtain ⟨hb', hf', hm', he'⟩ := get_games_ok_inv username urls from_ts to_ts
    (outs.set i (.ok q)) res' hres'
  have harch : res'.archives = res.archives := by
    rw [hf] at hf'
    exact (Except.ok.inj hf').symm
  have hndz : ((res.archives.zip outs).map Prod.fst).Nodup :=
    map_fst_zip_nodup _ _ hnd
  have hndz' : ((res.archives.zip (outs.set i (.ok q))).map Prod.fst).Nodup :=
    map_fst_zip_nodup _ _ hnd
  have hia : i < res.archives.length := by omega
  refine ⟨hia, ?_, ?_, ?_, harch, ?_⟩
  · have hz : (res.archives.get ⟨i, hia⟩, outs.get ⟨i, hi⟩) ∈
        res.archives.zip outs := by
      simpa only [List.get_eq_getElem] using zip_getElem_mem res.archives outs i hia hi
    rw [herr] at hz
    rw [he]
    exact (assembleLoop_lookup_err (to_utc_dt from_ts) (to_utc_dt to_ts)
      _ [] [] _ e hndz hz).1
  · have hlenr : (reprExc e).length = e.ename.length + 2 + e.emsg.length + 2 := by
      simp [reprExc]
      omega
    omega
  · have hz : (res.archives.get ⟨i, hia⟩, outs.get ⟨i, hi⟩) ∈
        res.archives.zip outs := by
      simpa only [List.get_eq_getElem] using zip_getElem_mem res.archives outs i hia hi
    rw [herr] at hz
    rw [hm]
    exact (assembleLoop_lookup_err (to_utc_dt from_ts) (to_utc_dt to_ts)
      _ [] [] _ e hndz hz).2
  · intro j hj hne
    have hjo : j < outs.length := by omega
    obtain ⟨p, hp⟩ := hothers j hjo hne
    refine ⟨p, hp, ?_, ?_⟩
    · have hz : (res.archives.get ⟨j, hj⟩, outs.get ⟨j, hjo⟩) ∈
          res.archives.zip outs := by
        simpa only [List.get_eq_getElem] using zip_getElem_mem res.archives outs j hj hjo
      rw [hp] at hz
      rw [hm]
      exact (assembleLoop_lookup_ok (to_utc_dt from_ts) (to_utc_dt to_ts)
        _ [] [] _ p hndz hz).1
    · have hjs : j < (outs.set i (.ok q)).length := by
        rw [List.length_set]
        omega
      have hset : (outs.set i (.ok q)).get ⟨j, hjs⟩ = outs.get ⟨j, hjo⟩ := by
        simp only [List.get_eq_getElem]
        exact List.getElem_set_ne (fun hh => hne hh.symm) _
      have hz : (res.archives.get ⟨j, hj⟩, (outs.set i (.ok q)).get ⟨j, hjs⟩) ∈
          res.archives.zip (outs.set i (.ok q)) := by
        simpa only [List.get_eq_getElem] using
          zip_getElem_mem res.archives (outs.set i (.ok q)) j hj hjs
      rw [hset, hp] at hz
      rw [hm', harch]
      exact (assembleLoop_lookup_ok (to_utc_dt from_ts) (to_utc_dt to_ts)
        _ [] [] _ p hndz' hz).1

end ChessGuru

namespace ChessGuru

/-- Witness for C5 at a concrete two-archive call whose first fetch
fails: the failing locator `a` maps to the exception's `repr` in
`errors`. -/
theorem claim_C5_witness :
    dictGet [("a".data, "E('x')".data)] "a".data =
      some (reprExc ⟨"E".data, "x".data⟩) := by
  obtain ⟨hia, h1, h2, h3, h4, h5⟩ := claim_C5 "user".data ["a".data, "b".data]
    none none [.error ⟨"E".data, "x".data⟩, .ok ⟨[], []⟩]
    { username := "user".data
      archives := ["a".data, "b".data]
      months := [("b".data, { games := [], extra := [] })]
      errors := [("a".data, "E('x')".data)]
      fromTs := none
      toTs := none }
    { username := "user".data
      archives := ["a".data, "b".data]
      months := [("a".data, { games := [], extra := [] }),
                 ("b".data, { games := [], extra := [] })]
      errors := []
      fromTs := none
      toTs := none }
    0 ⟨"E".data, "x".data⟩ ⟨[], []⟩
    rfl rfl (by decide) rfl (by decide) rfl
    (fun j hj hne => by
      have hj2 : j < 2 := by simpa using hj
      interval_cases j
      · exact absurd rfl hne
      · exact ⟨⟨[], []⟩, rfl⟩)
  exact h1

/-- C7 (amended): provided the filtered archive list has no duplicate
locator, a game record that passes the time filter but whose non-empty
notation text fails to parse is retained in its month's games list
without a `parsed_pgn` attachment; the call still returns a result (the
parse failure does not raise) and `errors` has no entry for that
locator (nor is the record dropped).  (With a duplicated locator the
later fetch's payload overwrites the month entry and can drop the
record.) -/
theorem claim_C7 (username : List Char) (urls filtered : List (List Char))
    (from_ts to_ts : Option PyDateTime)
    (outs : List (Except ExcInfo MonthPayload))
    (u : List Char) (p : MonthPayload) (g : GameRecord) (s : List Char)
    (hb : boundsInvalid (to_utc_dt from_ts) (to_utc_dt to_ts) = false)
    (hf : filterMonthUrls (to_utc_dt from_ts) (to_utc_dt to_ts) urls = .ok filtered)
    (hnd : filtered.Nodup)
    (hmem : (u, Except.ok p) ∈ filtered.zip outs)
    (hg : g ∈ p.games)
    (hkeep : timeKeep (to_utc_dt from_ts) (to_utc_dt to_ts) g = true)
    (hs : g.pgn = some s) (hsne : s.isEmpty = false)
    (hparse : parse_pgn s = none) :
    ∃ res, get_games username (.ok urls) from_ts to_ts outs = Except.ok res ∧
      (∃ mr, dictGet res.months u = some mr ∧
        ({ base := g, parsed_pgn := none } : AnnotatedGame) ∈ mr.games) ∧
      dictGet res.errors u = none := by
  have hndz : ((filtered.zip outs).map Prod.fst).Nodup :=
    map_fst_zip_nodup _ _ hnd
  have hl := assembleLoop_lookup_ok (to_utc_dt from_ts) (to_utc_dt to_ts)
    (filtered.zip outs) [] [] u p hndz hmem
  refine ⟨{ username := username
            archives := filtered
            months := (assembleLoop (to_utc_dt from_ts) (to_utc_dt to_ts)
              (filtered.zip outs) [] []).1
            errors := (assembleLoop (to_utc_dt from_ts) (to_utc_dt to_ts)
              (filtered.zip outs) [] []).2
            fromTs := to_utc_dt from_ts
            toTs := to_utc_dt to_ts }, ?_, ?_, ?_⟩
  · simp only [get_games, hf, hb]
    rfl
  · refine ⟨processMonth (to_utc_dt from_ts) (to_utc_dt to_ts) p, hl.1, ?_⟩
    have hproc : processGame (to_utc_dt from_ts) (to_utc_dt to_ts) g =
        some { base := g, parsed_pgn := none } := by
      unfold processGame
      rw [if_pos hkeep, hs]
      simp only [hsne, hparse]
      rfl
    exact List.mem_filterMap.mpr ⟨g, hg, hproc⟩
  · exact hl.2

/-- Witness for C7: one archive, no bounds, a single game whose notation
text `bad` lacks the blank-line separator: the game is kept unannotated
and no error entry appears. -/
theorem claim_C7_witness :
    ∃ res, get_games "user".data (.ok ["a".data]) none none
        [.ok ⟨[{ end_time := some 5, pgn := some "bad".data, extra := [] }], []⟩] =
        Except.ok res ∧
      (∃ mr, dictGet res.months "a".data = some mr ∧
        ({ base := { end_time := some 5, pgn := some "bad".data, extra := [] },
           parsed_pgn := none } : AnnotatedGame) ∈ mr.games) ∧
      dictGet res.errors "a".data = none := by
  exact claim_C7 "user".data ["a".data] ["a".data] none none
    [.ok ⟨[{ end_time := some 5, pgn := some "bad".data, extra := [] }], []⟩]
    "a".data ⟨[{ end_time := some 5, pgn := some "bad".data, extra := [] }], []⟩
    { end_time := some 5, pgn := some "bad".data, extra := [] } "bad".data
    rfl rfl (by decide) (by simp) (by simp) rfl rfl rfl rfl

end ChessGuru

namespace ChessGuru

/-! ## The bounded-concurrency fan-out of `get_games`

`get_games` runs `asyncio.gather` over `fetch_month` tasks, each of which
performs `async with sem: await self._request(url=u)` against
`sem = asyncio.Semaphore(max_concurrency)`.  The scheduler-level claim
about this fan-out is embedded as an interleaving transition system:
a task acquires a permit before its fetch call and releases it on
settling, and the `gather` fan-in is enabled only when every task has
settled. -/

/-- Status of one `fetch_month` task: waiting for the semaphore, holding
a permit while its `_request` call is in flight, or settled with the
outcome `gather` records for it. -/
inductive FetchStatus
  | queued
  | inFlight
  | settled (outcome : Except ExcInfo MonthPayload)

/-- Scheduler state of the fan-out: free permits of the semaphore and the
status of each gathered task. -/
structure FanoutState where
  sem : Nat
  tasks : List FetchStatus

/-- Is this task's fetch call currently running? -/
def isInFlight : FetchStatus → Bool
  | .inFlight => true
  | _ => false

/-- Number of fetch-capability calls running simultaneously. -/
def inFlightCount (s : FanoutState) : Nat :=
  s.tasks.countP isInFlight

/-- Start of the fan-out: `asyncio.Semaphore(max_concurrency)` full, all
`k` gathered month fetches still queued. -/
def initFanout (n k : Nat) : FanoutState :=
  ⟨n, List.replicate k .queued⟩

/-- One scheduler step: a queued task enters `async with sem` only when a
permit is free, taking it; an in-flight task settles with some outcome
(success or exception), releasing its permit.  No step aborts or cancels
any other task. -/
inductive FanoutStep : FanoutState → FanoutState → Prop
  | acquire (sem : Nat) (tasks : List FetchStatus) (i : Nat)
      (hi : i < tasks.length) (hq : tasks.get ⟨i, hi⟩ = .queued) :
      FanoutStep ⟨sem + 1, tasks⟩ ⟨sem, tasks.set i .inFlight⟩
  | settle (sem : Nat) (tasks : List FetchStatus) (i : Nat)
      (hi : i < tasks.length) (hf : tasks.get ⟨i, hi⟩ = .inFlight)
      (o : Except ExcInfo MonthPayload) :
      FanoutStep ⟨sem, tasks⟩ ⟨sem + 1, tasks.set i (.settled o)⟩

/-- Reachability by scheduler steps. -/
inductive FanoutReach : FanoutState → FanoutState → Prop
  | refl (s : FanoutState) : FanoutReach s s
  | tail {s t r : FanoutState} :
      FanoutReach s t → FanoutStep t r → FanoutReach s r

/-- The `await asyncio.gather(...)` fan-in returns exactly in states
where every task has settled. -/
def gatherDone (s : FanoutState) : Bool :=
  s.tasks.all (fun t => match t with | .settled _ => true | _ => false)

theorem countP_set_of_get {α : Type} (p : α → Bool) :
    ∀ (l : List α) (i : Nat) (hi : i < l.length) (a : α),
      (l.set i a).countP p + (if p (l.get ⟨i, hi⟩) then 1 else 0) =
        l.countP p + (if p a then 1 else 0)
  | [], i, hi, a => by simp at hi
  | b :: l, 0, _, a => by
    simp [List.countP_cons]
    omega
  | b :: l, i + 1, hi, a => by
    have ih := countP_set_of_get p l i (by simpa using hi) a
    simp only [List.set, List.countP_cons, List.get]
    omega

/-- Permit-accounting invariant of the fan-out: free permits plus
in-flight fetches always total `max_concurrency`. -/
theorem fanout_invariant (n k : Nat) (s : FanoutState)
    (h : FanoutReach (initFanout n k) s) :
    s.sem + inFlightCount s = n := by
  induction h with
  | refl =>
    have hz : (List.replicate k FetchStatus.queued).countP isInFlight = 0 := by
      apply List.countP_eq_zero.mpr
      intro a ha
      have hq := List.eq_of_mem_replicate ha
      simp [hq, isInFlight]
    simp [initFanout, inFlightCount, hz]
  | tail hr hs ih =>
    cases hs with
    | acquire sem tasks i hi hq =>
      have hc := countP_set_of_get isInFlight tasks i hi .inFlight
      rw [hq] at hc
      simp [isInFlight] at hc
      have ih2 : sem + 1 + tasks.countP isInFlight = n := ih
      show sem + (tasks.set i .inFlight).countP isInFlight = n
      omega
    | settle sem tasks i hi hf o =>
      have hc := countP_set_of_get isInFlight tasks i hi (.settled o)
      rw [hf] at hc
      simp [isInFlight] at hc
      have ih2 : sem + tasks.countP isInFlight = n := ih
      show sem + 1 + (tasks.set i (.settled o)).countP isInFlight = n
      omega

/-- C9: in every state reachable from the start of a `get_games` fan-out
with concurrency limit `n` and any number `k` of month fetches, at most
`n` fetch-capability calls are in flight; whenever `n` calls are in
flight the semaphore has no free permit, so no queued fetch can take an
`acquire` step until one frees; and the `gather` fan-in returns only in
states where every fetch has settled with an outcome. -/
theorem claim_C9 (n k : Nat) (s : FanoutState)
    (hreach : FanoutReach (initFanout n k) s) :
    inFlightCount s ≤ n ∧
    (inFlightCount s = n → s.sem = 0) ∧
    (gatherDone s = true → ∀ t ∈ s.tasks, ∃ o, t = .settled o) := by
  have hinv := fanout_invariant n k s hreach
  refine ⟨by omega, by omega, ?_⟩
  intro hdone t ht
  have hall := List.all_eq_true.mp hdone t ht
  cases t with
  | queued => cases hall
  | inFlight => cases hall
  | settled o => exact ⟨o, rfl⟩

/-- Witness for C9: with limit 1 and two queued fetches, the state after
the first task acquires the semaphore is reachable, has one call in
flight (within the limit) and an exhausted semaphore. -/
theorem claim_C9_witness :
    inFlightCount ⟨0, [.inFlight, .queued]⟩ ≤ 1 ∧
    (inFlightCount ⟨0, [.inFlight, .queued]⟩ = 1 →
      (⟨0, [.inFlight, .queued]⟩ : FanoutState).sem = 0) ∧
    (gatherDone ⟨0, [.inFlight, .queued]⟩ = true →
      ∀ t ∈ (⟨0, [.inFlight, .queued]⟩ : FanoutState).tasks,
        ∃ o, t = .settled o) :=
  claim_C9 1 2 ⟨0, [.inFlight, .queued]⟩
    (FanoutReach.tail (FanoutReach.refl _)
      (FanoutStep.acquire 0 [.queued, .queued] 0 (by decide) rfl))

end ChessGuru

namespace ChessGuru

/-- C5 (counterexample): the archive index is external input and may list
the same locator twice; with locator `a` fetched twice and exactly one of
the two fetches failing, the result records `a` in `errors` and `a`
nevertheless appears among the keys of `months` (the successful fetch of
the same locator stores its payload there), refuting "that locator does
not appear in months" as stated. -/
theorem claim_C5_counterexample :
    (get_games "user".data (.ok ["a".data, "a".data]) none none
        [.error ⟨"Err".data, "boom".data⟩,
         .ok ⟨[{ end_time := some 7, pgn := none, extra := [] }], []⟩]).toOption.map
      (fun r => (decide ("a".data ∈ dictKeys r.errors),
                 decide ("a".data ∈ dictKeys r.months))) = some (true, true) := by
  rfl

/-- C7 (counterexample): with the locator `a` duplicated in the archive
index and both fetches succeeding, the second payload's month entry
overwrites `months[a]`, so the first payload's game — which passes the
(absent) time filter and whose notation text `bad` fails to parse — is
dropped from the result, refuting "retains that game" / "does not drop
the record" as stated. -/
theorem claim_C7_counterexample :
    parse_pgn "bad".data = none ∧
    timeKeep none none
      { end_time := some 5, pgn := some "bad".data, extra := [] } = true ∧
    (get_games "user".data (.ok ["a".data, "a".data]) none none
        [.ok ⟨[{ end_time := some 5, pgn := some "bad".data, extra := [] }], []⟩,
         .ok ⟨[], []⟩]).toOption.map
      (fun r => (dictGet r.months "a".data).map (fun mr => mr.games)) =
      some (some []) := by
  exact ⟨rfl, rfl, rfl⟩

end ChessGuru
